import Mathlib

/-!
Verification of the retrieval-and-ranking pipeline of the rag-builder
repository (modules search.js, advancedSearch.js, webServer.js), as a
shallow embedding in Lean 4.

Modelling conventions:
* JavaScript numbers are modelled as exact rationals (`Rat`); all scores in
  the pipeline arise from small decimal constants and divisions, so no
  floating-point rounding behaviour is relied upon by the claims.
* JavaScript strings are modelled as Lean `String`; `toLowerCase`, `split`,
  `includes`, `substring` are given explicit character-list implementations
  mirroring the ECMAScript semantics on ASCII text (the corpus scope of the
  claims).  Query tokens are assumed free of regex metacharacters, so the
  dynamically built `\bword\b` regex of the reranker is modelled as a
  whole-word occurrence counter.
* The ChromaDB vector store collaborator is opaque: a record of two
  fallible functions (`similaritySearchWithScore`, `similaritySearch`),
  returning `Except` to model promise rejection.
* `Array.prototype.sort` (stable since ES2019) with comparator
  `(a, b) => b.score - a.score` is modelled as a stable insertion sort
  descending on the extracted key.
-/

/-! ## String helpers (ECMAScript semantics on ASCII text) -/

/-- Lower-casing, as `String.prototype.toLowerCase` on ASCII text. -/
def jsToLower (s : String) : String :=
  String.mk (s.toList.map Char.toLower)

/-- Executable infix test on lists (needle, haystack). -/
def infixTest : List Char → List Char → Bool
  | needle, [] => needle.isEmpty
  | needle, c :: rest => needle.isPrefixOf (c :: rest) || infixTest needle rest

/-- Substring test: `hay.includes(needle)` of ECMAScript. -/
def strIncludes (hay needle : String) : Bool :=
  infixTest needle.toList hay.toList

/-- First `n` characters: `s.substring(0, n)` of ECMAScript on ASCII text. -/
def strTake (s : String) (n : Nat) : String :=
  String.mk (s.toList.take n)

/-- Whitespace class of the regular expression `\s` (ASCII part). -/
def jsWhitespace (c : Char) : Bool :=
  c = ' ' || c = '\t' || c = '\n' || c = '\r' || c = '\x0b' || c = '\x0c'

def ofRev (acc : List Char) : String :=
  String.mk acc.reverse

mutual

/-- Worker for `jsSplitWs`: currently inside a token (`acc` reversed). -/
def splitWsGo (acc : List Char) : List Char → List String
  | [] => [ofRev acc]
  | c :: rest =>
    if jsWhitespace c then ofRev acc :: splitWsSkipRun rest
    else splitWsGo (c :: acc) rest

/-- Worker for `jsSplitWs`: currently inside a whitespace run. -/
def splitWsSkipRun : List Char → List String
  | [] => [""]
  | c :: rest =>
    if jsWhitespace c then splitWsSkipRun rest
    else splitWsGo [c] rest

end

/-- The ECMAScript split `query.split(/\s+/)`: splits on maximal whitespace
runs, keeping a leading empty string when the input starts with whitespace
and a trailing empty string when it ends with one; the empty string maps to
a single empty token. -/
def jsSplitWs (s : String) : List String :=
  splitWsGo [] s.toList

/-- The ECMAScript split `s.split(' ')`: one token per separator occurrence,
consecutive separators giving empty tokens. -/
def splitOnSpaceGo (acc : List Char) : List Char → List String
  | [] => [ofRev acc]
  | c :: rest =>
    if c = ' ' then ofRev acc :: splitOnSpaceGo [] rest
    else splitOnSpaceGo (c :: acc) rest

def jsSplitSpace (s : String) : List String :=
  splitOnSpaceGo [] s.toList

/-! ## Data model -/

/-- Chunk metadata, as produced by the document loader. -/
structure DocMetadata where
  source : Option String := none
  fileName : Option String := none
  relativePath : Option String := none
  directory : Option String := none
  lastModified : Option Int := none
  deriving DecidableEq, Repr

/-- A chunk of an indexed document, langchain `Document` shape. -/
structure Doc where
  pageContent : String
  metadata : DocMetadata
  deriving DecidableEq, Repr

inductive SearchType
  | semantic
  | keyword
  | fallback
  | expanded
  deriving DecidableEq, Repr

inductive Relevance
  | high
  | medium
  | low
  deriving DecidableEq, Repr

/-- A search result (candidate) as built by search.js and enriched by
advancedSearch.js: optional fields model properties absent in JavaScript. -/
structure SearchResult where
  document : Doc
  score : Rat
  type : SearchType
  relevance : Relevance
  keywordMatches : Option Nat := none
  expandedQuery : Option String := none
  rerankScore : Option Rat := none
  originalScore : Option Rat := none
  deriving DecidableEq, Repr

/-- Promise rejection carried through the pipeline. -/
structure SearchError where
  message : String
  deriving DecidableEq, Repr

/-- Opaque vector store collaborator: both operations can reject. -/
structure VectorStore where
  similaritySearchWithScore : String → Nat → Except SearchError (List (Doc × Rat))
  similaritySearch : String → Nat → Except SearchError (List Doc)

/-- JavaScript truthiness of a possibly-absent number (`undefined`, `0` and
`NaN` are falsy; `NaN` does not arise for the exact rationals modelled). -/
def truthyNum (o : Option Rat) : Bool :=
  match o with
  | some v => v != 0
  | none => false

/-- The idiom `x || y` on a possibly-absent number `x`. -/
def orTruthy (o : Option Rat) (d : Rat) : Rat :=
  match o with
  | some v => if v = 0 then d else v
  | none => d

/-- The idiom `s || d` on a possibly-absent string (empty string falsy). -/
def orElseStr (o : Option String) (d : String) : String :=
  match o with
  | some s => if s = "" then d else s
  | none => d

/-! ## search.js -/

/-- The relevance band `score > 0.7 : high, > 0.5 : medium, else low`. -/
def relevanceBand (s : Rat) : Relevance :=
  if (7 : Rat)/10 < s then .high else if (1 : Rat)/2 < s then .medium else .low

/-- Keyword tokens:
`query.toLowerCase().split(/\s+/).filter(word => word.length > 2)`. -/
def keywordsOf (query : String) : List String :=
  (jsSplitWs (jsToLower query)).filter (fun w => 2 < w.length)

/-- Per-chunk tally of query tokens found as substrings of the chunk text,
file name, or relative path (all lower-cased). -/
def docKeywordMatches (keywords : List String) (doc : Doc) : Nat :=
  let content := jsToLower doc.pageContent
  let fileName := jsToLower (orElseStr doc.metadata.fileName "")
  let relativePath := jsToLower (orElseStr doc.metadata.relativePath "")
  keywords.foldl
    (fun acc kw =>
      if strIncludes content kw || strIncludes fileName kw || strIncludes relativePath kw then
        acc + 1
      else acc) 0

/-- The keyword result pushed for a chunk with `matches > 0`. -/
def mkKeywordResult (keywords : List String) (doc : Doc) (m : Nat) : SearchResult :=
  { document := doc
    score := (m : Rat) / (keywords.length : Rat)
    type := .keyword
    relevance := relevanceBand ((m : Rat) / (keywords.length : Rat))
    keywordMatches := some m }

/-- The keyword scan loop of `performHybridSearch`, pushing one result per
chunk with at least one token match, in corpus order. -/
def keywordPassCandidates (keywords : List String) : List Doc → List SearchResult
  | [] => []
  | doc :: rest =>
    let m := docKeywordMatches keywords doc
    if 0 < m then
      mkKeywordResult keywords doc m :: keywordPassCandidates keywords rest
    else
      keywordPassCandidates keywords rest

/-- Wrapping of the semantic pass results. -/
def semanticCandidates (rs : List (Doc × Rat)) : List SearchResult :=
  rs.map (fun p =>
    { document := p.1
      score := p.2
      type := .semantic
      relevance := relevanceBand p.2 })

/-- Deduplication key:
`result.document.metadata?.source || result.document.pageContent.substring(0, 100)`. -/
def resultKey (r : SearchResult) : String :=
  orElseStr r.document.metadata.source (strTake r.document.pageContent 100)

/-- `Map.prototype.set`: replace in place when the key exists, else append. -/
def mapSet (m : List (String × SearchResult)) (k : String) (v : SearchResult) :
    List (String × SearchResult) :=
  match m with
  | [] => [(k, v)]
  | (k', v') :: rest =>
    if k' = k then (k, v) :: rest else (k', v') :: mapSet rest k v

/-- One iteration of the dedup loop:
`if (!uniqueResults.has(key) || result.score > uniqueResults.get(key).score) set`. -/
def dedupStep (m : List (String × SearchResult)) (r : SearchResult) :
    List (String × SearchResult) :=
  match m.lookup (resultKey r) with
  | none => mapSet m (resultKey r) r
  | some cur => if cur.score < r.score then mapSet m (resultKey r) r else m

/-- The merge step shared by `performHybridSearch` and
`performAdvancedSearch`: a `Map` keyed by `resultKey`, keeping the
higher-scoring result per key, read back in insertion order. -/
def mergeDedup (results : List SearchResult) : List SearchResult :=
  (results.foldl dedupStep []).map Prod.snd

/-- Stable insertion (descending on the key `f`). -/
def insertByKey (f : SearchResult → Rat) (x : SearchResult) :
    List SearchResult → List SearchResult
  | [] => [x]
  | y :: ys => if f y ≤ f x then x :: y :: ys else y :: insertByKey f x ys

/-- `results.sort((a, b) => b.key - a.key)`: the unique stable sort
descending on the key, realised as insertion sort. -/
def sortByDesc (f : SearchResult → Rat) : List SearchResult → List SearchResult
  | [] => []
  | x :: xs => insertByKey f x (sortByDesc f xs)

/-- The guarded body of `performHybridSearch` (everything inside `try`):
semantic pass at `2k`, keyword scan over the first 1000 documents fetched
with an empty query, merge, sort descending by score, truncate to `k`. -/
def hybridSearchBody (store : VectorStore) (query : String) (k : Nat) :
    Except SearchError (List SearchResult) := do
  let semanticResults ← store.similaritySearchWithScore query (k * 2)
  let allDocs ← store.similaritySearch "" 1000
  let results :=
    semanticCandidates semanticResults ++ keywordPassCandidates (keywordsOf query) allDocs
  pure ((sortByDesc (fun r => r.score) (mergeDedup results)).take k)

/-- Result shape of the `catch` branch: neutral score, fallback tag. -/
def mkFallbackResult (doc : Doc) : SearchResult :=
  { document := doc
    score := (1 : Rat)/2
    type := .fallback
    relevance := .medium }

/-- `performHybridSearch` of search.js: the guarded body, with a `catch`
falling back to a plain similarity query for `k` results; a rejection of
that plain query itself propagates. -/
def performHybridSearch (store : VectorStore) (query : String) (k : Nat) :
    Except SearchError (List SearchResult) :=
  match hybridSearchBody store query k with
  | .ok r => .ok r
  | .error _ =>
    match store.similaritySearch query k with
    | .ok docs => .ok (docs.map mkFallbackResult)
    | .error e => .error e

/-- `filterResultsByRelevance` of search.js:
`searchResults.filter(result => result.score > threshold)`. -/
def filterResultsByRelevance (searchResults : List SearchResult) (threshold : Rat) :
    List SearchResult :=
  searchResults.filter (fun r => threshold < r.score)

/-! ## advancedSearch.js -/

/-- The fixed synonym table of `expandQuery`. -/
def synonymMap (word : String) : Option (List String) :=
  if word = "learn" then some ["study", "understand", "grasp", "master", "acquire"]
  else if word = "work" then some ["job", "career", "employment", "profession"]
  else if word = "project" then some ["task", "assignment", "initiative", "endeavor"]
  else if word = "meeting" then some ["conference", "discussion", "session", "gathering"]
  else if word = "idea" then some ["concept", "thought", "notion", "proposal"]
  else if word = "problem" then some ["issue", "challenge", "difficulty", "obstacle"]
  else if word = "solution" then some ["answer", "fix", "resolution", "remedy"]
  else if word = "goal" then some ["objective", "target", "aim", "purpose"]
  else if word = "plan" then some ["strategy", "approach", "method", "scheme"]
  else if word = "result" then some ["outcome", "consequence", "effect", "conclusion"]
  else if word = "bhaiya" then some ["brother", "anshul", "anshul bhaiya"]
  else none

/-- Replacement of the first occurrence worker, on character lists. -/
def replaceFirstList (pat rep : List Char) : List Char → List Char
  | [] => if pat.isEmpty then rep else []
  | c :: rest =>
    if pat.isPrefixOf (c :: rest) then rep ++ (c :: rest).drop pat.length
    else c :: replaceFirstList pat rep rest

/-- `s.replace(pat, rep)` with a string pattern: replaces only the first
occurrence of `pat` as a substring, leaving `s` unchanged when absent. -/
def replaceFirst (s pat rep : String) : String :=
  String.mk (replaceFirstList pat.toList rep.toList s.toList)

/-- `expandQuery` of advancedSearch.js: starts from `[query]`, then for each
whitespace-delimited word of the lower-cased query that is a synonym key,
pushes `query.toLowerCase().replace(word, synonym)` for each synonym unless
already present. -/
def expandQuery (query : String) : List String :=
  let words := jsSplitWs (jsToLower query)
  words.foldl
    (fun expansions word =>
      match synonymMap word with
      | none => expansions
      | some syns =>
        syns.foldl
          (fun exps syn =>
            let expanded := replaceFirst (jsToLower query) word syn
            if exps.contains expanded then exps else exps ++ [expanded])
          expansions)
    [query]

/-- The mutation applied to each result of an expanded-query search:
`result.type = 'expanded'; result.expandedQuery = expandedQuery`. -/
def tagExpanded (eq : String) (r : SearchResult) : SearchResult :=
  { r with type := .expanded, expandedQuery := some eq }

/-- The expansion loop of `performAdvancedSearch`: each expanded query is
searched with `Math.ceil(k / 2)` and its rejection is caught and logged. -/
def expandedSearchResults (store : VectorStore) (k : Nat) :
    List String → List SearchResult
  | [] => []
  | q :: rest =>
    match performHybridSearch store q ((k + 1) / 2) with
    | .ok rs => rs.map (tagExpanded q) ++ expandedSearchResults store k rest
    | .error _ => expandedSearchResults store k rest

/-- `performAdvancedSearch` of advancedSearch.js: original query at `k`,
then `expandQuery(query).slice(1, 4)` each at `ceil(k/2)` (failures
absorbed), merged, deduplicated, sorted descending by score, first `k`. -/
def performAdvancedSearch (store : VectorStore) (query : String) (k : Nat) :
    Except SearchError (List SearchResult) := do
  let originalResults ← performHybridSearch store query k
  let expanded := ((expandQuery query).drop 1).take 3
  let allResults := originalResults ++ expandedSearchResults store k expanded
  pure ((sortByDesc (fun r => r.score) (mergeDedup allResults)).take k)

/-- Word character class of the regular expression `\b` boundary test. -/
def isWordChar (c : Char) : Bool :=
  c.isAlpha || c.isDigit || c = '_'

def wordB : Option Char → Bool
  | none => false
  | some c => isWordChar c

/-- Whether `\bpat\b` matches at the start of `s`, where `prev` is the
character immediately before this position (none at the string start). -/
def wholeWordMatchAt (prev : Option Char) (s pat : List Char) : Bool :=
  pat.isPrefixOf s &&
  (wordB prev != wordB s.head?) &&
  (wordB (if pat.isEmpty then prev else pat.getLast?) != wordB ((s.drop pat.length).head?))

/-- Occurrence counting worker: tries every position once (whole-word
matches of a word-character pattern cannot overlap, so this equals the
global-flag match count). -/
def countWholeWordAux (pat : List Char) : Option Char → List Char → Nat
  | prev, [] => if wholeWordMatchAt prev [] pat then 1 else 0
  | prev, c :: rest =>
    (if wholeWordMatchAt prev (c :: rest) pat then 1 else 0) +
      countWholeWordAux pat (some c) rest

/-- `(text.match(new RegExp(backslash-b + word + backslash-b, "gi")) || []).length`
for a lower-cased text and a regex-safe lower-cased word. -/
def countWholeWord (text word : String) : Nat :=
  countWholeWordAux word.toList none text.toList

/-- The per-result body of `rerankResults`: sequential additive boosts on the
initial score, recency judged against `now` (milliseconds since epoch). -/
def rerankOne (now : Int) (query : String) (r : SearchResult) : SearchResult :=
  let queryWords := jsSplitWs (jsToLower query)
  let content := jsToLower r.document.pageContent
  let fileName := jsToLower (orElseStr r.document.metadata.fileName "")
  let directory := jsToLower (orElseStr r.document.metadata.directory "")
  let s1 := r.score + (if strIncludes content (jsToLower query) then (2 : Rat)/10 else 0)
  let s2 := s1 + (if strIncludes fileName (jsToLower query) then (15 : Rat)/100 else 0)
  let s3 := s2 +
    (if 0 < directory.length ∧
        (jsSplitSpace (jsToLower query)).any (fun w => strIncludes directory w) then
      (1 : Rat)/10
    else 0)
  let wordFrequency : Rat := queryWords.foldl
    (fun acc w =>
      acc + (countWholeWord content w : Rat) + (countWholeWord fileName w : Rat) * 2 +
        (countWholeWord directory w : Rat) * ((3 : Rat)/2)) 0
  let s4 := s3 + min (wordFrequency * ((5 : Rat)/100)) ((3 : Rat)/10)
  let s5 := s4 +
    (match r.document.metadata.lastModified with
     | some lm =>
       if lm ≠ 0 ∧ ((now : Rat) - (lm : Rat)) / 86400000 < 30 then (1 : Rat)/10 else 0
     | none => 0)
  { r with rerankScore := some s5, originalScore := some r.score }

/-- `rerankResults` of advancedSearch.js: map every result through the boost
computation, then sort descending by `rerankScore` (set on every element by
the map). -/
def rerankResults (now : Int) (results : List SearchResult) (query : String) :
    List SearchResult :=
  sortByDesc (fun r => r.rerankScore.getD 0) (results.map (rerankOne now query))

/-! ## Context rendering and the web query path (advancedSearch.js,
webServer.js) -/

/-- Decimal rendering of `x.toFixed(3)`: the integer closest to `x * 1000`,
the larger one on ties, printed with exactly three fractional digits. -/
def formatFixed3 (x : Rat) : String :=
  let n : Int := (x * 1000 + (1 : Rat)/2).floor
  let m := n.natAbs
  let intPart := m / 1000
  let frac := m % 1000
  let fracStr :=
    (if frac < 10 then "00" else if frac < 100 then "0" else "") ++ toString frac
  (if n < 0 then "-" else "") ++ toString intPart ++ "." ++ fracStr

def relevanceText : Relevance → String
  | .high => "high"
  | .medium => "medium"
  | .low => "low"

def searchTypeText : SearchType → String
  | .semantic => "semantic"
  | .keyword => "keyword"
  | .fallback => "fallback"
  | .expanded => "expanded"

/-- One block of `buildEnhancedContext`: score shown from `rerankScore` when
truthy, else from `score`; original score appended when truthy. -/
def enhancedContextBlock (index : Nat) (r : SearchResult) : String :=
  let source := orElseStr r.document.metadata.fileName "Unknown"
  let directoryInfo :=
    match r.document.metadata.directory with
    | some d => if d = "" then "" else " | Directory: " ++ d
    | none => ""
  let score :=
    if truthyNum r.rerankScore then formatFixed3 (r.rerankScore.getD 0)
    else formatFixed3 r.score
  let originalScore :=
    if truthyNum r.originalScore then
      " (orig: " ++ formatFixed3 (r.originalScore.getD 0) ++ ")"
    else ""
  "[Source " ++ toString (index + 1) ++ ": " ++ source ++ directoryInfo ++
    " | Relevance: " ++ relevanceText r.relevance ++ " | Score: " ++ score ++
    originalScore ++ " | Type: " ++ searchTypeText r.type ++ "]\n" ++
    r.document.pageContent

def mapWithIndex (f : Nat → SearchResult → String) (l : List SearchResult) : List String :=
  (List.range l.length).zipWith f l

/-- `buildEnhancedContext` of advancedSearch.js. -/
def buildEnhancedContext (results : List SearchResult) : String :=
  String.intercalate "\n\n---\n\n" (mapWithIndex enhancedContextBlock results)

/-- The relevance filtering of the web query path:
`rerankedResults.filter(result => (result.rerankScore || result.score) > 0.25)`. -/
def webRelevanceFilter (results : List SearchResult) : List SearchResult :=
  results.filter (fun r => (25 : Rat)/100 < orTruthy r.rerankScore r.score)

/-- The source object shape returned by the `/api/query` route. -/
structure SourceEntry where
  id : Nat
  fileName : String
  directory : Option String
  source : String
  relevance : Relevance
  score : String
  originalScore : Option String
  type : SearchType
  expandedQuery : Option String
  preview : String
  deriving DecidableEq, Repr

/-- One element of the `sources` array built by the web query path; the
displayed score is `(result.rerankScore || result.score).toFixed(3)`. -/
def mkSourceEntry (index : Nat) (r : SearchResult) : SourceEntry :=
  { id := index + 1
    fileName := orElseStr r.document.metadata.fileName "Unknown"
    directory :=
      match r.document.metadata.directory with
      | some d => if d = "" then none else some d
      | none => none
    source := orElseStr r.document.metadata.source "Unknown"
    relevance := r.relevance
    score := formatFixed3 (orTruthy r.rerankScore r.score)
    originalScore :=
      if truthyNum r.originalScore then some (formatFixed3 (r.originalScore.getD 0))
      else none
    type := r.type
    expandedQuery :=
      match r.expandedQuery with
      | some q => if q = "" then none else some q
      | none => none
    preview := strTake r.document.pageContent 200 ++ "..." }

/-! ## Helper instances and lemmas -/

instance {e a : Type} [DecidableEq e] [DecidableEq a] : DecidableEq (Except e a) :=
  fun x y =>
    match x, y with
    | .ok u, .ok v =>
      if h : u = v then isTrue (by rw [h]) else isFalse (fun hc => by cases hc; exact h rfl)
    | .error u, .error v =>
      if h : u = v then isTrue (by rw [h]) else isFalse (fun hc => by cases hc; exact h rfl)
    | .ok _, .error _ => isFalse (fun hc => by cases hc)
    | .error _, .ok _ => isFalse (fun hc => by cases hc)

/-! ### Sorting lemmas -/

theorem mem_insertByKey {f : SearchResult → Rat} {x z : SearchResult} {l : List SearchResult} :
    z ∈ insertByKey f x l ↔ z = x ∨ z ∈ l := by
  induction l with
  | nil => simp [insertByKey]
  | cons y ys ih =>
    by_cases h : f y ≤ f x
    · simp [insertByKey, if_pos h]
    · simp only [insertByKey, if_neg h, List.mem_cons, ih]
      tauto

theorem insertByKey_perm (f : SearchResult → Rat) (x : SearchResult) (l : List SearchResult) :
    List.Perm (insertByKey f x l) (x :: l) := by
  induction l with
  | nil => simp [insertByKey]
  | cons y ys ih =>
    by_cases h : f y ≤ f x
    · simp [insertByKey, if_pos h]
    · simp only [insertByKey, if_neg h]
      exact List.Perm.trans (ih.cons y) (List.Perm.swap x y ys)

theorem sortByDesc_perm (f : SearchResult → Rat) (l : List SearchResult) :
    List.Perm (sortByDesc f l) l := by
  induction l with
  | nil => simp [sortByDesc]
  | cons x xs ih =>
    exact List.Perm.trans (insertByKey_perm f x (sortByDesc f xs)) (ih.cons x)

theorem mem_sortByDesc {f : SearchResult → Rat} {z : SearchResult} {l : List SearchResult} :
    z ∈ sortByDesc f l ↔ z ∈ l :=
  (sortByDesc_perm f l).mem_iff

theorem insertByKey_pairwise {f : SearchResult → Rat} {x : SearchResult} {l : List SearchResult}
    (hl : l.Pairwise (fun a b => f b ≤ f a)) :
    (insertByKey f x l).Pairwise (fun a b => f b ≤ f a) := by
  induction l with
  | nil => simp [insertByKey]
  | cons y ys ih =>
    rcases List.pairwise_cons.mp hl with ⟨hy, hys⟩
    by_cases h : f y ≤ f x
    · simp only [insertByKey, if_pos h]
      refine List.pairwise_cons.mpr ⟨?_, hl⟩
      intro z hz
      rcases List.mem_cons.mp hz with rfl | hz'
      · exact h
      · exact le_trans (hy z hz') h
    · simp only [insertByKey, if_neg h]
      refine List.pairwise_cons.mpr ⟨?_, ih hys⟩
      intro z hz
      rcases mem_insertByKey.mp hz with rfl | hz'
      · exact le_of_lt (lt_of_not_le h)
      · exact hy z hz'

theorem sortByDesc_pairwise (f : SearchResult → Rat) (l : List SearchResult) :
    (sortByDesc f l).Pairwise (fun a b => f b ≤ f a) := by
  induction l with
  | nil => simp [sortByDesc]
  | cons x xs ih =>
    simp only [sortByDesc]
    exact insertByKey_pairwise ih

/-! ### Merge and dedup lemmas -/

def keysOf (m : List (String × SearchResult)) : List String :=
  m.map Prod.fst

theorem lookup_eq_none_iff {m : List (String × SearchResult)} {k : String} :
    m.lookup k = none ↔ k ∉ keysOf m := by
  induction m with
  | nil => simp [keysOf]
  | cons p rest ih =>
    obtain ⟨k', v'⟩ := p
    by_cases h : k = k'
    · subst h
      simp [List.lookup, keysOf]
    · have hbeq : (k == k') = false := beq_eq_false_iff_ne.mpr h
      simp only [List.lookup, hbeq, keysOf, List.map_cons, List.mem_cons]
      rw [ih]
      constructor
      · intro hnk hor
        rcases hor with he | hm
        · exact h he
        · exact hnk hm
      · intro hall hm
        exact hall (Or.inr hm)

theorem lookup_mem {m : List (String × SearchResult)} {k : String} {v : SearchResult}
    (h : m.lookup k = some v) : (k, v) ∈ m := by
  induction m with
  | nil => simp [List.lookup] at h
  | cons p rest ih =>
    obtain ⟨k', v'⟩ := p
    by_cases hk : k = k'
    · subst hk
      simp only [List.lookup, beq_self_eq_true, Option.some.injEq] at h
      subst h
      exact List.mem_cons_self _ _
    · have hbeq : (k == k') = false := beq_eq_false_iff_ne.mpr hk
      simp only [List.lookup, hbeq] at h
      exact List.mem_cons_of_mem _ (ih h)

theorem keysOf_mapSet_of_mem {m : List (String × SearchResult)} {k : String}
    (v : SearchResult) (h : k ∈ keysOf m) : keysOf (mapSet m k v) = keysOf m := by
  induction m with
  | nil => simp [keysOf] at h
  | cons p rest ih =>
    obtain ⟨k', v'⟩ := p
    by_cases hk : k' = k
    · subst hk
      simp [mapSet, keysOf]
    · have hmem : k ∈ keysOf rest := by
        simp only [keysOf, List.map_cons, List.mem_cons] at h
        rcases h with he | hm
        · exact absurd he.symm hk
        · exact hm
      simp only [mapSet, if_neg hk, keysOf, List.map_cons, List.cons.injEq]
      exact ⟨trivial, ih hmem⟩

theorem keysOf_mapSet_of_not_mem {m : List (String × SearchResult)} {k : String}
    (v : SearchResult) (h : k ∉ keysOf m) : keysOf (mapSet m k v) = keysOf m ++ [k] := by
  induction m with
  | nil => simp [mapSet, keysOf]
  | cons p rest ih =>
    obtain ⟨k', v'⟩ := p
    simp only [keysOf, List.map_cons, List.mem_cons] at h
    push_neg at h
    have hk : k' ≠ k := fun he => h.1 he.symm
    simp only [mapSet, if_neg hk, keysOf, List.map_cons, List.cons_append, List.cons.injEq]
    exact ⟨trivial, ih h.2⟩

theorem mem_mapSet_of_nodup {m : List (String × SearchResult)} {k : String}
    {v : SearchResult} {p : String × SearchResult} (hn : (keysOf m).Nodup)
    (hp : p ∈ mapSet m k v) : p = (k, v) ∨ (p ∈ m ∧ p.1 ≠ k) := by
  induction m with
  | nil =>
    simp only [mapSet, List.mem_singleton] at hp
    exact Or.inl hp
  | cons q rest ih =>
    obtain ⟨k', v'⟩ := q
    simp only [keysOf, List.map_cons, List.nodup_cons] at hn
    by_cases hk : k' = k
    · simp only [mapSet, if_pos hk, List.mem_cons] at hp
      rcases hp with heq | hrest
      · exact Or.inl heq
      · refine Or.inr ⟨List.mem_cons_of_mem _ hrest, ?_⟩
        intro hpk
        apply hn.1
        rw [hk, ← hpk]
        exact List.mem_map_of_mem Prod.fst hrest
    · simp only [mapSet, if_neg hk, List.mem_cons] at hp
      rcases hp with rfl | hrest
      · exact Or.inr ⟨List.mem_cons_self _ _, fun hc => hk hc⟩
      · rcases ih hn.2 hrest with hh | ⟨hm, hne⟩
        · exact Or.inl hh
        · exact Or.inr ⟨List.mem_cons_of_mem _ hm, hne⟩

theorem entry_unique {m : List (String × SearchResult)} (hn : (keysOf m).Nodup)
    {p q : String × SearchResult} (hp : p ∈ m) (hq : q ∈ m) (hk : p.1 = q.1) : p = q := by
  induction m with
  | nil => simp at hp
  | cons a rest ih =>
    simp only [keysOf, List.map_cons, List.nodup_cons] at hn
    rcases List.mem_cons.mp hp with rfl | hp'
    · rcases List.mem_cons.mp hq with rfl | hq'
      · rfl
      · exfalso
        apply hn.1
        rw [hk]
        exact List.mem_map_of_mem Prod.fst hq'
    · rcases List.mem_cons.mp hq with rfl | hq'
      · exfalso
        apply hn.1
        rw [← hk]
        exact List.mem_map_of_mem Prod.fst hp'
      · exact ih hn.2 hp' hq'

/-- Invariant of the dedup fold: the accumulated map has distinct keys,
every entry is one of the processed results filed under its own key with
the maximal score seen for that key, and every processed key is present. -/
def goodMap (seen : List SearchResult) (m : List (String × SearchResult)) : Prop :=
  (keysOf m).Nodup ∧
  (∀ p ∈ m, p.2 ∈ seen ∧ resultKey p.2 = p.1 ∧
    ∀ r ∈ seen, resultKey r = p.1 → r.score ≤ p.2.score) ∧
  (∀ r ∈ seen, resultKey r ∈ keysOf m)

theorem goodMap_nil : goodMap [] [] := by
  refine ⟨List.nodup_nil, ?_, ?_⟩
  · intro p hp
    simp at hp
  · intro r hr
    simp at hr

theorem dedupStep_good {seen : List SearchResult} {m : List (String × SearchResult)}
    (h : goodMap seen m) (r : SearchResult) : goodMap (seen ++ [r]) (dedupStep m r) := by
  obtain ⟨hnodup, hentries, hcomplete⟩ := h
  unfold dedupStep
  cases hlook : m.lookup (resultKey r) with
  | none =>
    have hnot : resultKey r ∉ keysOf m := lookup_eq_none_iff.mp hlook
    have hkeys := keysOf_mapSet_of_not_mem (m := m) (k := resultKey r) r hnot
    refine ⟨?_, ?_, ?_⟩
    · rw [hkeys]
      exact List.Nodup.append hnodup (List.nodup_singleton _)
        (by
          intro a ha hb
          simp only [List.mem_singleton] at hb
          subst hb
          exact hnot ha)
    · intro p hp
      rcases mem_mapSet_of_nodup hnodup hp with rfl | ⟨hm, hne⟩
      · refine ⟨List.mem_append_right _ (List.mem_singleton_self _), rfl, ?_⟩
        intro r' hr' hkey
        rcases List.mem_append.mp hr' with hseen | hsingle
        · have hmemk : resultKey r' ∈ keysOf m := hcomplete r' hseen
          rw [hkey] at hmemk
          exact absurd hmemk hnot
        · rcases List.mem_singleton.mp hsingle with rfl
          exact le_refl _
      · obtain ⟨hmem, hkey, hmax⟩ := hentries p hm
        refine ⟨List.mem_append_left _ hmem, hkey, ?_⟩
        intro r' hr' hk
        rcases List.mem_append.mp hr' with hseen | hsingle
        · exact hmax r' hseen hk
        · rcases List.mem_singleton.mp hsingle with rfl
          exact absurd (hk ▸ hne) (fun hc => hc rfl)
    · intro r' hr'
      rw [hkeys]
      rcases List.mem_append.mp hr' with hseen | hsingle
      · exact List.mem_append_left _ (hcomplete r' hseen)
      · rcases List.mem_singleton.mp hsingle with rfl
        exact List.mem_append_right _ (List.mem_singleton_self _)
  | some cur =>
    have hcurmem : (resultKey r, cur) ∈ m := lookup_mem hlook
    obtain ⟨hcmem, hckey, hcmax⟩ := hentries _ hcurmem
    have hkmem : resultKey r ∈ keysOf m := List.mem_map_of_mem Prod.fst hcurmem
    by_cases hscore : cur.score < r.score
    · simp only [if_pos hscore]
      have hkeys := keysOf_mapSet_of_mem (m := m) (k := resultKey r) r hkmem
      refine ⟨by rw [hkeys]; exact hnodup, ?_, ?_⟩
      · intro p hp
        rcases mem_mapSet_of_nodup hnodup hp with rfl | ⟨hm, hne⟩
        · refine ⟨List.mem_append_right _ (List.mem_singleton_self _), rfl, ?_⟩
          intro r' hr' hkey
          rcases List.mem_append.mp hr' with hseen | hsingle
          · exact le_trans (hcmax r' hseen hkey) (le_of_lt hscore)
          · rcases List.mem_singleton.mp hsingle with rfl
            exact le_refl _
        · obtain ⟨hmem, hkey, hmax⟩ := hentries p hm
          refine ⟨List.mem_append_left _ hmem, hkey, ?_⟩
          intro r' hr' hk
          rcases List.mem_append.mp hr' with hseen | hsingle
          · exact hmax r' hseen hk
          · rcases List.mem_singleton.mp hsingle with rfl
            exact absurd (hk ▸ hne) (fun hc => hc rfl)
      · intro r' hr'
        rw [hkeys]
        rcases List.mem_append.mp hr' with hseen | hsingle
        · exact hcomplete r' hseen
        · rcases List.mem_singleton.mp hsingle with rfl
          exact hkmem
    · simp only [if_neg hscore]
      refine ⟨hnodup, ?_, ?_⟩
      · intro p hp
        obtain ⟨hmem, hkey, hmax⟩ := hentries p hp
        refine ⟨List.mem_append_left _ hmem, hkey, ?_⟩
        intro r' hr' hk
        rcases List.mem_append.mp hr' with hseen | hsingle
        · exact hmax r' hseen hk
        · rcases List.mem_singleton.mp hsingle with rfl
          have hpq : p = (resultKey r', cur) := entry_unique hnodup hp hcurmem hk.symm
          rw [hpq]
          exact le_of_not_lt hscore
      · intro r' hr'
        rcases List.mem_append.mp hr' with hseen | hsingle
        · exact hcomplete r' hseen
        · rcases List.mem_singleton.mp hsingle with rfl
          exact hkmem

theorem foldl_dedupStep_good :
    ∀ (l seen : List SearchResult) (m : List (String × SearchResult)),
      goodMap seen m → goodMap (seen ++ l) (l.foldl dedupStep m)
  | [], seen, m, h => by simpa using h
  | r :: rest, seen, m, h => by
    have hstep := dedupStep_good h r
    have hres := foldl_dedupStep_good rest (seen ++ [r]) (dedupStep m r) hstep
    simpa [List.append_assoc] using hres

theorem mergeDedup_good (l : List SearchResult) :
    goodMap l (l.foldl dedupStep []) := by
  have h := foldl_dedupStep_good l [] [] goodMap_nil
  simpa using h

theorem mem_mergeDedup {r : SearchResult} {l : List SearchResult}
    (h : r ∈ mergeDedup l) : r ∈ l := by
  obtain ⟨p, hp, hpe⟩ := List.mem_map.mp h
  obtain ⟨hmem, _, _⟩ := (mergeDedup_good l).2.1 p hp
  rw [← hpe]
  exact hmem

theorem mergeDedup_max {r : SearchResult} {l : List SearchResult}
    (h : r ∈ mergeDedup l) : ∀ r' ∈ l, resultKey r' = resultKey r → r'.score ≤ r.score := by
  obtain ⟨p, hp, hpe⟩ := List.mem_map.mp h
  obtain ⟨_, hkey, hmax⟩ := (mergeDedup_good l).2.1 p hp
  intro r' hr' hk
  subst hpe
  apply hmax r' hr'
  rw [hk, hkey]

theorem mergeDedup_keys_nodup (l : List SearchResult) :
    ((mergeDedup l).map resultKey).Nodup := by
  obtain ⟨hnodup, hentries, _⟩ := mergeDedup_good l
  have heq : (mergeDedup l).map resultKey = keysOf (l.foldl dedupStep []) := by
    unfold mergeDedup keysOf
    rw [List.map_map]
    apply List.map_congr_left
    intro p hp
    exact (hentries p hp).2.1
  rw [heq]
  exact hnodup

/-! ### Keyword pass lemmas -/

theorem keywordPassCandidates_eq_filterMap (keywords : List String) (docs : List Doc) :
    keywordPassCandidates keywords docs =
      docs.filterMap (fun d =>
        if 0 < docKeywordMatches keywords d then
          some (mkKeywordResult keywords d (docKeywordMatches keywords d))
        else none) := by
  induction docs with
  | nil => rfl
  | cons d rest ih =>
    by_cases h : 0 < docKeywordMatches keywords d
    · simp [keywordPassCandidates, List.filterMap_cons, if_pos h, ih]
    · simp [keywordPassCandidates, List.filterMap_cons, if_neg h, ih]

theorem mem_keywordPassCandidates {keywords : List String} {docs : List Doc}
    {r : SearchResult} :
    r ∈ keywordPassCandidates keywords docs ↔
      ∃ d ∈ docs, 0 < docKeywordMatches keywords d ∧
        r = mkKeywordResult keywords d (docKeywordMatches keywords d) := by
  rw [keywordPassCandidates_eq_filterMap]
  rw [List.mem_filterMap]
  constructor
  · rintro ⟨d, hd, hopt⟩
    by_cases h : 0 < docKeywordMatches keywords d
    · rw [if_pos h] at hopt
      exact ⟨d, hd, h, (Option.some.inj hopt).symm⟩
    · rw [if_neg h] at hopt
      cases hopt
  · rintro ⟨d, hd, h, rfl⟩
    exact ⟨d, hd, by rw [if_pos h]⟩

theorem docKeywordMatches_le (keywords : List String) (d : Doc) :
    docKeywordMatches keywords d ≤ keywords.length := by
  unfold docKeywordMatches
  have hgen : ∀ (ws : List String) (acc : Nat),
      ws.foldl (fun acc kw =>
        if strIncludes (jsToLower d.pageContent) kw ||
            strIncludes (jsToLower (orElseStr d.metadata.fileName "")) kw ||
            strIncludes (jsToLower (orElseStr d.metadata.relativePath "")) kw then
          acc + 1
        else acc) acc ≤ acc + ws.length := by
    intro ws
    induction ws with
    | nil => intro acc; simp
    | cons w rest ih =>
      intro acc
      by_cases h : strIncludes (jsToLower d.pageContent) w ||
          strIncludes (jsToLower (orElseStr d.metadata.fileName "")) w ||
          strIncludes (jsToLower (orElseStr d.metadata.relativePath "")) w
      · simp only [List.foldl_cons, if_pos h, List.length_cons]
        calc List.foldl _ (acc + 1) rest ≤ (acc + 1) + rest.length := ih (acc + 1)
          _ = acc + (rest.length + 1) := by omega
      · simp only [List.foldl_cons, if_neg h, List.length_cons]
        calc List.foldl _ acc rest ≤ acc + rest.length := ih acc
          _ ≤ acc + (rest.length + 1) := by omega
  simpa using hgen keywords 0

theorem docKeywordMatches_nil (d : Doc) : docKeywordMatches [] d = 0 := rfl

theorem keywordPassCandidates_nil_keywords (docs : List Doc) :
    keywordPassCandidates [] docs = [] := by
  induction docs with
  | nil => rfl
  | cons d rest ih => simp [keywordPassCandidates, docKeywordMatches_nil, ih]

/-! ### Control-flow equations for the fallible pipeline -/

theorem hybridSearchBody_ok {store : VectorStore} {query : String} {k : Nat}
    {sem : List (Doc × Rat)} {docs : List Doc}
    (h1 : store.similaritySearchWithScore query (k * 2) = .ok sem)
    (h2 : store.similaritySearch "" 1000 = .ok docs) :
    hybridSearchBody store query k =
      .ok ((sortByDesc (fun r => r.score)
        (mergeDedup (semanticCandidates sem ++
          keywordPassCandidates (keywordsOf query) docs))).take k) := by
  unfold hybridSearchBody
  rw [h1, h2]
  rfl

theorem hybridSearchBody_error_sem {store : VectorStore} {query : String} {k : Nat}
    {e : SearchError} (h1 : store.similaritySearchWithScore query (k * 2) = .error e) :
    hybridSearchBody store query k = .error e := by
  unfold hybridSearchBody
  rw [h1]
  rfl

theorem hybridSearchBody_error_scan {store : VectorStore} {query : String} {k : Nat}
    {sem : List (Doc × Rat)} {e : SearchError}
    (h1 : store.similaritySearchWithScore query (k * 2) = .ok sem)
    (h2 : store.similaritySearch "" 1000 = .error e) :
    hybridSearchBody store query k = .error e := by
  unfold hybridSearchBody
  rw [h1, h2]
  rfl

theorem performHybridSearch_of_body_error {store : VectorStore} {query : String} {k : Nat}
    {e : SearchError} {docs : List Doc}
    (hb : hybridSearchBody store query k = .error e)
    (hf : store.similaritySearch query k = .ok docs) :
    performHybridSearch store query k = .ok (docs.map mkFallbackResult) := by
  unfold performHybridSearch
  rw [hb, hf]

theorem performAdvancedSearch_ok {store : VectorStore} {query : String} {k : Nat}
    {res : List SearchResult} (h : performHybridSearch store query k = .ok res) :
    performAdvancedSearch store query k =
      .ok ((sortByDesc (fun r => r.score)
        (mergeDedup (res ++
          expandedSearchResults store k (((expandQuery query).drop 1).take 3)))).take k) := by
  unfold performAdvancedSearch
  rw [h]
  rfl

theorem mem_expandedSearchResults {store : VectorStore} {k : Nat} {qs : List String}
    {r : SearchResult} (h : r ∈ expandedSearchResults store k qs) :
    ∃ q ∈ qs, ∃ rs, performHybridSearch store q ((k + 1) / 2) = .ok rs ∧
      ∃ r0 ∈ rs, r = tagExpanded q r0 := by
  induction qs with
  | nil => simp [expandedSearchResults] at h
  | cons q rest ih =>
    unfold expandedSearchResults at h
    cases hq : performHybridSearch store q ((k + 1) / 2) with
    | ok rs =>
      rw [hq] at h
      rcases List.mem_append.mp h with hmap | htail
      · obtain ⟨r0, hr0, hre⟩ := List.mem_map.mp hmap
        exact ⟨q, List.mem_cons_self _ _, rs, hq, r0, hr0, hre.symm⟩
      · obtain ⟨q', hq', rs', hok, r0, hr0, hre⟩ := ih htail
        exact ⟨q', List.mem_cons_of_mem _ hq', rs', hok, r0, hr0, hre⟩
    | error e =>
      rw [hq] at h
      obtain ⟨q', hq', rs', hok, r0, hr0, hre⟩ := ih h
      exact ⟨q', List.mem_cons_of_mem _ hq', rs', hok, r0, hr0, hre⟩

/-! ### Query expansion lemmas -/

/-- The shape of every non-initial element of the expansion list: the
lower-cased query with the first substring occurrence of one of its
whitespace-delimited words that is a synonym key replaced by a synonym. -/
def expansionShape (query : String) (e : String) : Prop :=
  ∃ word syns syn, word ∈ jsSplitWs (jsToLower query) ∧ synonymMap word = some syns ∧
    syn ∈ syns ∧ e = replaceFirst (jsToLower query) word syn

/-- Fold invariant for `expandQuery`. -/
def expandInv (query : String) (acc : List String) : Prop :=
  ∃ rest, acc = query :: rest ∧ acc.Nodup ∧ ∀ e ∈ rest, expansionShape query e

theorem expandInv_append {query e : String} {acc : List String}
    (h : expandInv query acc) (he : expansionShape query e) :
    expandInv query (if acc.contains e then acc else acc ++ [e]) := by
  obtain ⟨rest, rfl, hnodup, hshape⟩ := h
  by_cases hc : (query :: rest).contains e
  · rw [if_pos hc]
    exact ⟨rest, rfl, hnodup, hshape⟩
  · rw [if_neg hc]
    have hnotmem : e ∉ query :: rest := by
      intro hmem
      exact hc (by simpa [List.contains] using List.elem_iff.mpr hmem)
    refine ⟨rest ++ [e], rfl, ?_, ?_⟩
    · rw [List.nodup_append]
      refine ⟨hnodup, List.nodup_singleton _, ?_⟩
      intro a ha hb
      rcases List.mem_singleton.mp hb with rfl
      exact hnotmem ha
    · intro x hx
      rcases List.mem_append.mp hx with hx1 | hx2
      · exact hshape x hx1
      · rcases List.mem_singleton.mp hx2 with rfl
        exact he

theorem expandInv_foldSyns {query word : String} {syns0 : List String}
    (hw : word ∈ jsSplitWs (jsToLower query)) (hs : synonymMap word = some syns0) :
    ∀ (syns : List String), (∀ s ∈ syns, s ∈ syns0) →
      ∀ (acc : List String), expandInv query acc →
        expandInv query (syns.foldl
          (fun exps syn =>
            let expanded := replaceFirst (jsToLower query) word syn
            if exps.contains expanded then exps else exps ++ [expanded]) acc)
  | [], _, acc, h => h
  | s :: rest, hsub, acc, h => by
    simp only [List.foldl_cons]
    apply expandInv_foldSyns hw hs rest (fun x hx => hsub x (List.mem_cons_of_mem _ hx))
    exact expandInv_append h
      ⟨word, syns0, s, hw, hs, hsub s (List.mem_cons_self _ _), rfl⟩

theorem expandInv_foldWords {query : String} :
    ∀ (words : List String), (∀ w ∈ words, w ∈ jsSplitWs (jsToLower query)) →
      ∀ (acc : List String), expandInv query acc →
        expandInv query (words.foldl
          (fun expansions word =>
            match synonymMap word with
            | none => expansions
            | some syns =>
              syns.foldl
                (fun exps syn =>
                  let expanded := replaceFirst (jsToLower query) word syn
                  if exps.contains expanded then exps else exps ++ [expanded])
                expansions) acc)
  | [], _, acc, h => h
  | w :: rest, hsub, acc, h => by
    simp only [List.foldl_cons]
    apply expandInv_foldWords rest (fun x hx => hsub x (List.mem_cons_of_mem _ hx))
    cases hsyn : synonymMap w with
    | none => exact h
    | some syns =>
      exact expandInv_foldSyns (hsub w (List.mem_cons_self _ _)) hsyn syns
        (fun s hs => hs) acc h

theorem expandQuery_inv (query : String) : expandInv query (expandQuery query) := by
  unfold expandQuery
  apply expandInv_foldWords (jsSplitWs (jsToLower query)) (fun w hw => hw)
  exact ⟨[], rfl, List.nodup_singleton _, by intro e he; simp at he⟩

/-! ### Reranker boost decomposition -/

/-- The exact-phrase boost of `rerankResults`. -/
def exactPhraseBoost (query : String) (d : Doc) : Rat :=
  if strIncludes (jsToLower d.pageContent) (jsToLower query) then (2 : Rat)/10 else 0

/-- The file-name boost of `rerankResults`. -/
def fileNameBoost (query : String) (d : Doc) : Rat :=
  if strIncludes (jsToLower (orElseStr d.metadata.fileName "")) (jsToLower query) then
    (15 : Rat)/100
  else 0

/-- The directory boost of `rerankResults`: a nonempty directory that
contains some single-space-delimited word of the lower-cased query as a
substring. -/
def directoryBoost (query : String) (d : Doc) : Rat :=
  if 0 < (jsToLower (orElseStr d.metadata.directory "")).length ∧
      (jsSplitSpace (jsToLower query)).any
        (fun w => strIncludes (jsToLower (orElseStr d.metadata.directory "")) w) then
    (1 : Rat)/10
  else 0

/-- Weighted whole-word frequency over chunk text, file name and directory. -/
def weightedWordFrequency (query : String) (d : Doc) : Rat :=
  (jsSplitWs (jsToLower query)).foldl
    (fun acc w =>
      acc + (countWholeWord (jsToLower d.pageContent) w : Rat) +
        (countWholeWord (jsToLower (orElseStr d.metadata.fileName "")) w : Rat) * 2 +
        (countWholeWord (jsToLower (orElseStr d.metadata.directory "")) w : Rat) * ((3 : Rat)/2))
    0

/-- The term-frequency boost: 0.05 per weighted occurrence, capped at 0.30. -/
def frequencyBoost (query : String) (d : Doc) : Rat :=
  min (weightedWordFrequency query d * ((5 : Rat)/100)) ((3 : Rat)/10)

/-- The recency boost: a truthy modification timestamp less than 30 days
before `now`. -/
def recencyBoost (now : Int) (d : Doc) : Rat :=
  match d.metadata.lastModified with
  | some lm => if lm ≠ 0 ∧ ((now : Rat) - (lm : Rat)) / 86400000 < 30 then (1 : Rat)/10 else 0
  | none => 0

/-- Total additive boost applied by the reranker to one candidate. -/
def rerankTotalBoost (now : Int) (query : String) (d : Doc) : Rat :=
  exactPhraseBoost query d + fileNameBoost query d + directoryBoost query d +
    frequencyBoost query d + recencyBoost now d

theorem rerankOne_eq (now : Int) (query : String) (r : SearchResult) :
    rerankOne now query r =
      { r with rerankScore := some (r.score + rerankTotalBoost now query r.document)
               originalScore := some r.score } := by
  unfold rerankOne rerankTotalBoost exactPhraseBoost fileNameBoost directoryBoost
    frequencyBoost weightedWordFrequency recencyBoost
  simp only []
  congr 1
  exact congrArg some (by ring)

theorem weightedWordFrequency_nonneg (query : String) (d : Doc) :
    0 ≤ weightedWordFrequency query d := by
  unfold weightedWordFrequency
  have hgen : ∀ (ws : List String) (acc : Rat), 0 ≤ acc →
      0 ≤ ws.foldl
        (fun acc w =>
          acc + (countWholeWord (jsToLower d.pageContent) w : Rat) +
            (countWholeWord (jsToLower (orElseStr d.metadata.fileName "")) w : Rat) * 2 +
            (countWholeWord (jsToLower (orElseStr d.metadata.directory "")) w : Rat) *
              ((3 : Rat)/2)) acc := by
    intro ws
    induction ws with
    | nil => intro acc h; simpa using h
    | cons w rest ih =>
      intro acc h
      simp only [List.foldl_cons]
      apply ih
      have h1 : (0 : Rat) ≤ (countWholeWord (jsToLower d.pageContent) w : Rat) :=
        Nat.cast_nonneg _
      have h2 : (0 : Rat) ≤ (countWholeWord (jsToLower (orElseStr d.metadata.fileName "")) w : Rat) * 2 :=
        mul_nonneg (Nat.cast_nonneg _) (by norm_num)
      have h3 : (0 : Rat) ≤ (countWholeWord (jsToLower (orElseStr d.metadata.directory "")) w : Rat) * ((3 : Rat)/2) :=
        mul_nonneg (Nat.cast_nonneg _) (by norm_num)
      linarith
  exact hgen _ 0 le_rfl

theorem rerankTotalBoost_nonneg (now : Int) (query : String) (d : Doc) :
    0 ≤ rerankTotalBoost now query d := by
  unfold rerankTotalBoost
  have h1 : 0 ≤ exactPhraseBoost query d := by
    unfold exactPhraseBoost
    split <;> norm_num
  have h2 : 0 ≤ fileNameBoost query d := by
    unfold fileNameBoost
    split <;> norm_num
  have h3 : 0 ≤ directoryBoost query d := by
    unfold directoryBoost
    split <;> norm_num
  have h4 : 0 ≤ frequencyBoost query d := by
    unfold frequencyBoost
    apply le_min
    · exact mul_nonneg (weightedWordFrequency_nonneg query d) (by norm_num)
    · norm_num
  have h5 : 0 ≤ recencyBoost now d := by
    unfold recencyBoost
    split
    · split <;> norm_num
    · exact le_rfl
  linarith

/-! ## Definitions written from the specification text, for comparison
against the source translations -/

/-- Effective score as the specification words it: `rerankScore` when
present (regardless of its value), else `score`. -/
def effectiveScore (r : SearchResult) : Rat :=
  match r.rerankScore with
  | some v => v
  | none => r.score

/-- Directory boost as the specification words it: the directory shares a
whitespace-delimited word with the query (all lower-cased). -/
def claimedDirectoryBoost (query : String) (d : Doc) : Rat :=
  if (jsSplitWs (jsToLower (orElseStr d.metadata.directory ""))).any
      (fun w => (jsSplitWs (jsToLower query)).contains w) then
    (1 : Rat)/10
  else 0

/-- Reranked score as the claim words it: score plus the five boosts, with
the directory boost read as a shared whitespace-delimited word. -/
def rerankScoreClaimed (now : Int) (query : String) (r : SearchResult) : Rat :=
  r.score + exactPhraseBoost query r.document + fileNameBoost query r.document +
    claimedDirectoryBoost query r.document + frequencyBoost query r.document +
    recencyBoost now r.document

/-- Query variants as the claim words them: substitute exactly one
whitespace-delimited lowercased word that is a synonym key with one of its
synonyms, the rest of the query unchanged. -/
def wordSubstitutionVariants (query : String) : List String :=
  let ws := jsSplitWs (jsToLower query)
  (List.range ws.length).flatMap
    (fun i =>
      match synonymMap (ws.getD i "") with
      | some syns => syns.map (fun syn => String.intercalate " " (ws.set i syn))
      | none => [])

/-! ## Concrete fixtures -/

def fixErr : SearchError := { message := "boom" }

def fixDocA : Doc :=
  { pageContent := "plan meeting"
    metadata := { source := some "a.md", fileName := some "a.md" } }

/-- A store whose semantic pass and whose empty-query corpus fetch both
reject, while a plain similarity query answers from `corpus`. -/
def failingStore (corpus : List Doc) : VectorStore :=
  { similaritySearchWithScore := fun _ _ => .error fixErr
    similaritySearch := fun q k => if q = "" then .error fixErr else .ok (corpus.take k) }

/-- A store whose semantic pass finds nothing and whose plain similarity
queries answer the first `k` chunks of a fixed corpus snapshot. -/
def snapshotStore (corpus : List Doc) : VectorStore :=
  { similaritySearchWithScore := fun _ _ => .ok []
    similaritySearch := fun _ k => .ok (corpus.take k) }

def emptyFixDoc : Doc := { pageContent := "", metadata := {} }

def matchFixDoc : Doc := { pageContent := "abc", metadata := {} }

/-- A corpus of 1001 chunks whose only chunk matching the token `abc` is
the 1001st. -/
def corpus1001 : List Doc := List.replicate 1000 emptyFixDoc ++ [matchFixDoc]

def c2res : SearchResult :=
  { document := fixDocA
    score := (9 : Rat)/10
    type := .semantic
    relevance := .high
    rerankScore := some ((1 : Rat)/10) }

def c3resA : SearchResult :=
  { document := fixDocA, score := (1 : Rat)/2, type := .semantic, relevance := .low }

def c3resB : SearchResult :=
  { document := fixDocA, score := (3 : Rat)/4, type := .keyword, relevance := .high }

def c4doc : Doc := { pageContent := "zzz", metadata := { directory := some "work" } }

def c4res : SearchResult :=
  { document := c4doc, score := 0, type := .semantic, relevance := .low }

def c8res : SearchResult :=
  { document := fixDocA, score := (2 : Rat)/5, type := .semantic, relevance := .low }

def c10res : SearchResult :=
  { document := fixDocA
    score := (3 : Rat)/10
    type := .semantic
    relevance := .low
    rerankScore := some 0
    originalScore := some ((3 : Rat)/10) }

/-! ## Claim theorems -/

/-- C1: if the semantic pass or the keyword pass of `performHybridSearch`
rejects, the error is caught and the function returns the results of a
plain similarity query for `k` results, each tagged type `fallback` with
score `0.5`; under a failure of both passes the function still returns a
well-formed (possibly empty) result list rather than an unhandled
rejection, as long as the plain fallback query itself answers. -/
theorem hybrid_fallback_on_pass_failure (store : VectorStore) (query : String) (k : Nat)
    (docs : List Doc)
    (hfail : (∃ e, store.similaritySearchWithScore query (k * 2) = .error e) ∨
      (∃ e, store.similaritySearch "" 1000 = .error e))
    (hplain : store.similaritySearch query k = .ok docs) :
    performHybridSearch store query k = .ok (docs.map mkFallbackResult) ∧
      ∀ r ∈ docs.map mkFallbackResult, r.type = .fallback ∧ r.score = (1 : Rat)/2 := by
  have hbody : ∃ e, hybridSearchBody store query k = .error e := by
    rcases hfail with ⟨e, he⟩ | ⟨e, he⟩
    · exact ⟨e, hybridSearchBody_error_sem he⟩
    · cases hsem : store.similaritySearchWithScore query (k * 2) with
      | ok sem => exact ⟨e, hybridSearchBody_error_scan hsem he⟩
      | error e' => exact ⟨e', hybridSearchBody_error_sem hsem⟩
  obtain ⟨e, hb⟩ := hbody
  refine ⟨performHybridSearch_of_body_error hb hplain, ?_⟩
  intro r hr
  obtain ⟨d, _, rfl⟩ := List.mem_map.mp hr
  exact ⟨rfl, rfl⟩

/-- C1 witness: a store failing both passes, probed at a concrete query. -/
theorem hybrid_fallback_on_pass_failure_witness :
    performHybridSearch (failingStore [fixDocA]) "abc" 2 =
      .ok ([fixDocA].map mkFallbackResult) :=
  (hybrid_fallback_on_pass_failure (failingStore [fixDocA]) "abc" 2 [fixDocA]
    (Or.inl ⟨fixErr, rfl⟩) rfl).1

unseal Rat.mul Rat.add Rat.inv Rat.sub in
/-- C2 counterexample: a candidate whose `rerankScore` is present and below
the threshold while its `score` is above it is retained by
`filterResultsByRelevance`, though its effective score (as the claim reads
it: `rerankScore` if present) does not exceed the threshold. -/
theorem relevance_filter_ignores_rerankScore_cex :
    filterResultsByRelevance [c2res] ((1 : Rat)/2) = [c2res] ∧
      effectiveScore c2res = (1 : Rat)/10 ∧
      ¬ ((1 : Rat)/2 < effectiveScore c2res) := by
  decide

/-- C2 amended: `filterResultsByRelevance` retains exactly the candidates
whose `score` field (the `rerankScore` is ignored even when present) is
strictly greater than the threshold, so equality with the threshold
excludes; the web query path filters on `rerankScore` when present and
nonzero, else `score`, strictly above `0.25`. -/
theorem relevance_filters_strict (l : List SearchResult) (t : Rat) (r : SearchResult) :
    (r ∈ filterResultsByRelevance l t ↔ r ∈ l ∧ t < r.score) ∧
      (r ∈ webRelevanceFilter l ↔ r ∈ l ∧ (25 : Rat)/100 < orTruthy r.rerankScore r.score) := by
  constructor
  · simp [filterResultsByRelevance, List.mem_filter]
  · simp [webRelevanceFilter, List.mem_filter]

/-- C3: the merge step shared by `performHybridSearch` and
`performAdvancedSearch` keeps at most one candidate per identity key
(`resultKey`: metadata source when present and nonempty, else the first
100 characters of the chunk text), every survivor comes from the input,
and the survivor's score is the maximum input score for its key. -/
theorem mergeDedup_dedup_invariant (l : List SearchResult) :
    ((mergeDedup l).map resultKey).Nodup ∧
      ∀ r ∈ mergeDedup l, r ∈ l ∧
        ∀ r' ∈ l, resultKey r' = resultKey r → r'.score ≤ r.score :=
  ⟨mergeDedup_keys_nodup l, fun _ hr => ⟨mem_mergeDedup hr, mergeDedup_max hr⟩⟩

unseal Rat.mul Rat.add Rat.inv Rat.sub in
/-- C3 witness: two results with the same source key; the kept one wins by
score and dominates the dropped one. -/
theorem mergeDedup_dedup_invariant_witness :
    c3resB ∈ [c3resA, c3resB] ∧ c3resA.score ≤ c3resB.score :=
  ⟨((mergeDedup_dedup_invariant [c3resA, c3resB]).2 c3resB (by decide)).1,
    ((mergeDedup_dedup_invariant [c3resA, c3resB]).2 c3resB (by decide)).2
      c3resA (by decide) (by decide)⟩

unseal Rat.mul Rat.add Rat.inv Rat.sub in
/-- C4 counterexample: for query `ork` and a chunk whose directory is
`work`, the code boosts by 0.1 because the query word `ork` is a substring
of the directory, while the claim's reading (directory shares a
whitespace-delimited word with the query) yields no boost: the claimed
formula gives 0 where `rerankResults` assigns 1/10. -/
theorem rerank_directory_boost_cex :
    (rerankResults 0 [c4res] "ork").map (fun r => r.rerankScore) = [some ((1 : Rat)/10)] ∧
      rerankScoreClaimed 0 "ork" c4res = 0 ∧ ((1 : Rat)/10 : Rat) ≠ 0 := by
  decide

/-- C4 amended: `rerankResults` assigns every candidate
`rerankScore = score` plus additive non-negative boosts on lower-cased
text — +0.20 for the full query as a substring of the chunk text, +0.15
for the file name, +0.10 when the directory is nonempty and contains some
single-space-delimited word of the query as a substring, 0.05 per weighted
whole-word occurrence (text x1, file name x2, directory x1.5) capped at
0.30, and +0.10 for a truthy modification timestamp less than 30 days
before now — and returns the same candidates sorted descending by
`rerankScore`, whence `rerankScore` is at least `score`. -/
theorem rerank_assigns_boosts_and_sorts (now : Int) (query : String)
    (l : List SearchResult) :
    List.Perm (rerankResults now l query) (l.map (rerankOne now query)) ∧
      (rerankResults now l query).Pairwise
        (fun a b => b.rerankScore.getD 0 ≤ a.rerankScore.getD 0) ∧
      ∀ r ∈ rerankResults now l query, ∃ r0 ∈ l,
        r = rerankOne now query r0 ∧
        r.rerankScore = some (r0.score + rerankTotalBoost now query r0.document) ∧
        r.originalScore = some r0.score ∧
        0 ≤ rerankTotalBoost now query r0.document ∧
        r0.score ≤ r.rerankScore.getD 0 := by
  refine ⟨sortByDesc_perm _ _, sortByDesc_pairwise _ _, ?_⟩
  intro r hr
  have hmem : r ∈ l.map (rerankOne now query) := mem_sortByDesc.mp hr
  obtain ⟨r0, hr0, hre⟩ := List.mem_map.mp hmem
  subst hre
  have heq := rerankOne_eq now query r0
  have hnn := rerankTotalBoost_nonneg now query r0.document
  refine ⟨r0, hr0, rfl, by rw [heq], by rw [heq], hnn, ?_⟩
  rw [heq]
  simp only [Option.getD_some]
  linarith

unseal Rat.mul Rat.add Rat.inv Rat.sub in
/-- C4 witness: the reranker applied to a concrete candidate and query. -/
theorem rerank_assigns_boosts_and_sorts_witness :
    ∃ r0 ∈ [c4res],
      rerankOne 0 "ork" c4res = rerankOne 0 "ork" r0 ∧
      (rerankOne 0 "ork" c4res).rerankScore =
        some (r0.score + rerankTotalBoost 0 "ork" r0.document) ∧
      (rerankOne 0 "ork" c4res).originalScore = some r0.score ∧
      0 ≤ rerankTotalBoost 0 "ork" r0.document ∧
      r0.score ≤ (rerankOne 0 "ork" c4res).rerankScore.getD 0 := by
  have h := (rerank_assigns_boosts_and_sorts 0 "ork" [c4res]).2.2
    (rerankOne 0 "ork" c4res) (by decide)
  obtain ⟨r0, hr0, he1, he2, he3, he4, he5⟩ := h
  exact ⟨r0, hr0, he1, he2, he3, he4, he5⟩

set_option maxRecDepth 100000 in
unseal Rat.mul Rat.add Rat.inv Rat.sub in
/-- C5 counterexample: with a corpus of 1001 chunks whose only chunk
matching the query token is the 1001st, the hybrid search emits no keyword
candidate at all — the scan reads only the first 1000 documents returned
by the empty-query fetch, so a matching chunk of the corpus is excluded. -/
theorem keyword_scan_corpus_cap_cex :
    performHybridSearch (snapshotStore corpus1001) "abc" 5 = .ok [] ∧
      matchFixDoc ∈ corpus1001 ∧
      0 < docKeywordMatches (keywordsOf "abc") matchFixDoc :=
  ⟨by decide, List.mem_append_right _ (List.mem_singleton_self _), by decide⟩

/-- C5 amended: the keyword pass tokenizes the lower-cased query by
whitespace dropping tokens of length at most 2, scans exactly the
documents returned by the store for the empty-query fetch capped at 1000,
and emits one candidate per scanned chunk with at least one token
occurring as a substring of its text, file name or relative path, built by
`mkKeywordResult` (type `keyword`, score = matches / token count); chunks
beyond the 1000-document fetch are not scanned. -/
theorem keyword_pass_scans_fetched_docs :
    (∀ (keywords : List String) (docs : List Doc) (r : SearchResult),
      r ∈ keywordPassCandidates keywords docs ↔
        ∃ d ∈ docs, 0 < docKeywordMatches keywords d ∧
          r = mkKeywordResult keywords d (docKeywordMatches keywords d)) ∧
    (∀ (store : VectorStore) (query : String) (k : Nat) (sem : List (Doc × Rat))
        (docs : List Doc),
      store.similaritySearchWithScore query (k * 2) = .ok sem →
      store.similaritySearch "" 1000 = .ok docs →
      hybridSearchBody store query k =
        .ok ((sortByDesc (fun r => r.score)
          (mergeDedup (semanticCandidates sem ++
            keywordPassCandidates (keywordsOf query) docs))).take k)) :=
  ⟨fun _ _ _ => mem_keywordPassCandidates,
    fun _ _ _ _ _ h1 h2 => hybridSearchBody_ok h1 h2⟩

unseal Rat.mul Rat.add Rat.inv Rat.sub in
/-- C5 witness: a one-chunk corpus matched by the query `plan`. -/
theorem keyword_pass_scans_fetched_docs_witness :
    mkKeywordResult (keywordsOf "plan") fixDocA 1 ∈
        keywordPassCandidates (keywordsOf "plan") [fixDocA] ∧
      hybridSearchBody (snapshotStore [fixDocA]) "plan" 2 =
        .ok ((sortByDesc (fun r => r.score)
          (mergeDedup (semanticCandidates [] ++
            keywordPassCandidates (keywordsOf "plan") [fixDocA]))).take 2) :=
  ⟨(keyword_pass_scans_fetched_docs.1 _ _ _).mpr
      ⟨fixDocA, by decide, by decide, by decide⟩,
    keyword_pass_scans_fetched_docs.2 (snapshotStore [fixDocA]) "plan" 2 [] [fixDocA]
      rfl rfl⟩

/-- C6 counterexample: for the query `network work`, the second expansion
is `netjob work` — the first substring occurrence of `work` (inside
`network`) was replaced — which is not obtainable by substituting one
whitespace-delimited word of the query, and is not the original query. -/
theorem expand_substring_replace_cex :
    (expandQuery "network work").get? 1 = some "netjob work" ∧
      "netjob work" ∉ wordSubstitutionVariants "network work" ∧
      "netjob work" ≠ "network work" := by
  decide

/-- C6 amended: `expandQuery` returns the original query verbatim first,
has no duplicates, and every later element is obtained from the
lower-cased query by replacing the first substring occurrence of some
whitespace-delimited word of the lower-cased query that is a synonym key
with one of its mapped synonyms. -/
theorem expandQuery_shape (query : String) :
    (expandQuery query).head? = some query ∧
      (expandQuery query).Nodup ∧
      ∀ e ∈ (expandQuery query).tail,
        ∃ word syns syn, word ∈ jsSplitWs (jsToLower query) ∧
          synonymMap word = some syns ∧ syn ∈ syns ∧
          e = replaceFirst (jsToLower query) word syn := by
  obtain ⟨rest, heq, hnodup, hshape⟩ := expandQuery_inv query
  rw [heq]
  rw [heq] at hnodup
  exact ⟨rfl, hnodup, fun e he => hshape e he⟩

/-- C6 witness: the shape of the variant `netjob work`. -/
theorem expandQuery_shape_witness :
    ∃ word syns syn, word ∈ jsSplitWs (jsToLower "network work") ∧
      synonymMap word = some syns ∧ syn ∈ syns ∧
      "netjob work" = replaceFirst (jsToLower "network work") word syn :=
  (expandQuery_shape "network work").2.2 "netjob work" (by decide)

/-- C7: when the original hybrid search answers, `performAdvancedSearch`
answers as well (a rejected expanded-variant search is absorbed), returns
at most `k` results sorted descending by score, and every returned result
either comes from the original search at `k` or from a successful hybrid
search at `ceil(k/2)` for one of the 2nd to 4th expansion variants, tagged
type `expanded` with the variant query attached. -/
theorem advanced_search_pipeline (store : VectorStore) (query : String) (k : Nat)
    (res : List SearchResult) (h : performHybridSearch store query k = .ok res) :
    ∃ out, performAdvancedSearch store query k = .ok out ∧
      out.length ≤ k ∧
      out.Pairwise (fun a b => b.score ≤ a.score) ∧
      ∀ r ∈ out, r ∈ res ∨
        ∃ q ∈ ((expandQuery query).drop 1).take 3,
          ∃ rs, performHybridSearch store q ((k + 1) / 2) = .ok rs ∧
            ∃ r0 ∈ rs, r = tagExpanded q r0 ∧ r.type = .expanded ∧
              r.expandedQuery = some q := by
  refine ⟨_, performAdvancedSearch_ok h, List.length_take_le _ _, ?_, ?_⟩
  · exact List.Pairwise.sublist (List.take_sublist _ _) (sortByDesc_pairwise _ _)
  · intro r hr
    have h1 := List.mem_of_mem_take hr
    have h2 := mem_sortByDesc.mp h1
    have h3 := mem_mergeDedup h2
    rcases List.mem_append.mp h3 with hres | hexp
    · exact Or.inl hres
    · obtain ⟨q, hq, rs, hok, r0, hr0, hre⟩ := mem_expandedSearchResults hexp
      refine Or.inr ⟨q, hq, rs, hok, r0, hr0, hre, ?_, ?_⟩
      · rw [hre]
        rfl
      · rw [hre]
        rfl

unseal Rat.mul Rat.add Rat.inv Rat.sub in
/-- C7 witness: a concrete store and query on which the original hybrid
search answers with one keyword result. -/
theorem advanced_search_pipeline_witness :
    ∃ out, performAdvancedSearch (snapshotStore [fixDocA]) "plan" 2 = .ok out ∧
      out.length ≤ 2 ∧
      out.Pairwise (fun a b => b.score ≤ a.score) ∧
      ∀ r ∈ out, r ∈ [mkKeywordResult (keywordsOf "plan") fixDocA 1] ∨
        ∃ q ∈ ((expandQuery "plan").drop 1).take 3,
          ∃ rs, performHybridSearch (snapshotStore [fixDocA]) q ((2 + 1) / 2) = .ok rs ∧
            ∃ r0 ∈ rs, r = tagExpanded q r0 ∧ r.type = .expanded ∧
              r.expandedQuery = some q :=
  advanced_search_pipeline (snapshotStore [fixDocA]) "plan" 2
    [mkKeywordResult (keywordsOf "plan") fixDocA 1] (by decide)

/-- C8: the relevance filter is monotone in the threshold: whatever a
strictly larger threshold retains, a smaller one retains as well. -/
theorem relevance_filter_threshold_monotone (l : List SearchResult) (t1 t2 : Rat)
    (h : t1 < t2) (r : SearchResult) (hr : r ∈ filterResultsByRelevance l t2) :
    r ∈ filterResultsByRelevance l t1 := by
  simp only [filterResultsByRelevance, List.mem_filter, decide_eq_true_eq] at hr ⊢
  exact ⟨hr.1, lt_trans h hr.2⟩

unseal Rat.mul Rat.add Rat.inv Rat.sub in
/-- C8 witness: thresholds 0.25 < 0.3 on a candidate scoring 0.4. -/
theorem relevance_filter_threshold_monotone_witness :
    c8res ∈ filterResultsByRelevance [c8res] ((1 : Rat)/4) :=
  relevance_filter_threshold_monotone [c8res] ((1 : Rat)/4) ((3 : Rat)/10)
    (by norm_num) c8res (by decide)

/-- C9: a query all of whose whitespace-delimited (lower-cased) tokens
have length at most 2 — including the empty query — yields no keyword
candidates; and every emitted keyword candidate records a positive match
count over a nonempty token list, so its score `matches / token count`
never divides by zero. -/
theorem keyword_pass_short_tokens_safe :
    (∀ (query : String) (docs : List Doc),
      (∀ w ∈ jsSplitWs (jsToLower query), w.length ≤ 2) →
      keywordPassCandidates (keywordsOf query) docs = []) ∧
    (∀ (keywords : List String) (docs : List Doc) (r : SearchResult),
      r ∈ keywordPassCandidates keywords docs →
      0 < keywords.length ∧ ∃ m, r.keywordMatches = some m ∧ 0 < m ∧
        r.score = (m : Rat) / (keywords.length : Rat)) := by
  constructor
  · intro query docs hshort
    have hkw : keywordsOf query = [] := by
      unfold keywordsOf
      rw [List.filter_eq_nil_iff]
      intro w hw
      simp only [decide_eq_true_eq]
      have := hshort w hw
      omega
    rw [hkw]
    exact keywordPassCandidates_nil_keywords docs
  · intro kws docs r hr
    obtain ⟨d, _, hpos, rfl⟩ := mem_keywordPassCandidates.mp hr
    have hle := docKeywordMatches_le kws d
    exact ⟨by omega, docKeywordMatches kws d, rfl, hpos, rfl⟩

unseal Rat.mul Rat.add Rat.inv Rat.sub in
/-- C9 witness: the query `a b` (all tokens short) emits nothing; a
concrete emitted keyword candidate has a positive denominator. -/
theorem keyword_pass_short_tokens_safe_witness :
    keywordPassCandidates (keywordsOf "a b") [fixDocA] = [] ∧
      (0 < (keywordsOf "plan").length ∧
        ∃ m, (mkKeywordResult (keywordsOf "plan") fixDocA 1).keywordMatches = some m ∧
          0 < m ∧ (mkKeywordResult (keywordsOf "plan") fixDocA 1).score =
            (m : Rat) / ((keywordsOf "plan").length : Rat)) :=
  ⟨keyword_pass_short_tokens_safe.1 "a b" [fixDocA] (by decide),
    keyword_pass_short_tokens_safe.2 (keywordsOf "plan") [fixDocA] _ (by decide)⟩

/-- C10: a `rerankScore` of exactly 0 is treated as absent: the web query
path filters such a candidate on its original score, its displayed source
entry is the one of the candidate without a `rerankScore`, showing the
original score, and `buildEnhancedContext` renders its block from the
original score as well. -/
theorem zero_rerankScore_treated_absent (r : SearchResult) (i : Nat)
    (h : r.rerankScore = some 0) :
    orTruthy r.rerankScore r.score = r.score ∧
      webRelevanceFilter [r] = (if (25 : Rat)/100 < r.score then [r] else []) ∧
      enhancedContextBlock i r = enhancedContextBlock i { r with rerankScore := none } ∧
      mkSourceEntry i r = mkSourceEntry i { r with rerankScore := none } ∧
      (mkSourceEntry i r).score = formatFixed3 r.score := by
  have ho : orTruthy r.rerankScore r.score = r.score := by
    rw [h]
    simp [orTruthy]
  refine ⟨ho, ?_, ?_, ?_, ?_⟩
  · unfold webRelevanceFilter
    by_cases hc : (25 : Rat)/100 < r.score <;>
      simp [List.filter, ho, hc]
  · unfold enhancedContextBlock
    rw [h]
    simp [truthyNum]
  · unfold mkSourceEntry
    rw [h]
    simp [orTruthy, truthyNum]
  · unfold mkSourceEntry
    rw [h]
    simp [orTruthy]

/-- C10 witness: a concrete candidate with `rerankScore = 0`. -/
theorem zero_rerankScore_treated_absent_witness :
    orTruthy c10res.rerankScore c10res.score = c10res.score ∧
      (mkSourceEntry 0 c10res).score = formatFixed3 c10res.score :=
  ⟨(zero_rerankScore_treated_absent c10res 0 (by decide)).1,
    (zero_rerankScore_treated_absent c10res 0 (by decide)).2.2.2.2⟩
